import Mathlib

/-!
Verification development for mecab-spawn (src/mecab-spawn.js), a wrapper
that serializes analysis requests to a long-lived line-oriented subprocess
over a single stdin/stdout pipe pair.

Bytes are modelled as natural numbers (Buffer entries), decoded text as
lists of characters, and the pluggable hooks (encoder, decoder, line
parser) as plain Lean functions.  The event-driven object
(`MeCab` in the source) is modelled as an explicit state threaded through
the handlers; promise settlement is modelled by a `settled` flag on each
queued task plus an append-only event log, with tasks numbered in
submission order so that "the future of request k" is identified by k.
-/

/-- Character code of a carriage return, as in the source's
`const CR = '\r'.charCodeAt(0)`. -/
def CRb : Nat := 13

/-- Character code of a line feed, as in the source's
`const LF = '\n'.charCodeAt(0)`. -/
def LFb : Nat := 10

/-- Test whether `pat` is an initial run of `l`.  Used to express the
full-match-at-an-offset semantics of `Buffer.indexOf` / `String.indexOf`. -/
def beginsWith {γ : Type} [DecidableEq γ] : List γ → List γ → Bool
  | [], _ => true
  | _ :: _, [] => false
  | p :: ps, x :: xs => p = x && beginsWith ps xs

/-- Embeds `buffer.indexOf(pattern, offset)` (JavaScript `Buffer.indexOf` /
`String.indexOf`): the offset of the first complete occurrence of `pat`
inside `l`, or `none` when there is none.  The caller's starting offset is
modelled by searching in the suffix `l.drop offset`. -/
def bufIndexOf {γ : Type} [DecidableEq γ] (pat : List γ) : List γ → Option Nat
  | [] => if beginsWith pat ([] : List γ) then some 0 else none
  | x :: xs =>
    if beginsWith pat (x :: xs) then some 0
    else (bufIndexOf pat xs).map (· + 1)

/-- Embeds `MeCabReadTask._parseSentence` (src/mecab-spawn.js:78-91): scan the
decoded sentence for occurrences of the platform terminator `eol`, pass each
terminator-completed line to the line parser, and stop at the first position
with no further terminator (the unterminated remainder is dropped). -/
def parseSentence {α : Type} (eol : List Char) (he : eol ≠ []) (parse : List Char → α)
    (s : List Char) : List α :=
  match h : bufIndexOf eol s with
  | none => []
  | some i => parse (s.take i) :: parseSentence eol he parse (s.drop (i + eol.length))
termination_by s.length
decreasing_by
  have hne : s ≠ [] := by
    intro hnil
    subst hnil
    cases heol : eol with
    | nil => exact he heol
    | cons a as => rw [heol] at h; simp [bufIndexOf, beginsWith] at h
  have hlen : 0 < eol.length := by
    cases heol : eol with
    | nil => exact absurd heol he
    | cons a as => simp [heol]
  have hs : 0 < s.length := List.length_pos.mpr hne
  simp only [List.length_drop]
  omega

/-- Configuration and sizing data carried by one `MeCabReadTask`
(src/mecab-spawn.js:27-38): the sentinel sample and boundary object captured
from the owning `MeCab` at construction, the expected sentinel count
(`_maxEos`), the decoder chosen for this request (`_decoder`, with the
default UTF-8 `buffer.toString` path folded into one total function), the
line parser and the platform terminator used by `_parseSentence`.  The
source reads `mecab.lineParser` at parse time rather than capturing it; no
modelled action mutates the parser (the spec allows swapping it only
between operations), so carrying it here is equivalent. -/
structure RCfg (α : Type) where
  eosSample : List Nat
  sampleNE : eosSample ≠ []
  eosObject : α
  maxEos : Nat
  dec : List Nat → List Char
  lineParse : List Char → α
  eol : List Char
  eolNE : eol ≠ []

/-- Mutable fields of one `MeCabReadTask` (src/mecab-spawn.js:27-38):
the accumulated result list (`_result`), the retained tail awaiting the next
chunk (`_lastBuffer`, with JavaScript `null` modelled as `[]`, which behaves
identically under concatenation), and the observed sentinel counter
(`_eosCount`). -/
structure RState (α : Type) where
  result : List α
  lastBuffer : List Nat
  eosCount : Nat

/-- Initial state of a freshly constructed `MeCabReadTask`. -/
def RState.init {α : Type} : RState α := ⟨[], [], 0⟩

/-- Outcome of the `while` loop of `MeCabReadTask.readData`: either the
operation is still accumulating (`more` carries the retained tail, the
counter and the result so far) or it resolved (`done` carries the resolved
result list). -/
inductive LoopOut (α : Type) where
  | more (tail : List Nat) (eosCount : Nat) (result : List α)
  | done (res : List α)

/-- Embeds the `while (offset < buffer.length)` loop of
`MeCabReadTask.readData` (src/mecab-spawn.js:53-74), with the current offset
represented by the suffix `buffer.drop offset`.  Each found sentinel decodes
the segment before it, parses it when the decoded text is non-empty,
increments the counter, resolves as soon as the counter reaches `maxEos`
(without appending the boundary object for that final occurrence), and
otherwise appends the boundary object and continues past the sentinel.  When
no occurrence is found the remainder is retained as the tail. -/
def loopRun {α : Type} (cfg : RCfg α) (suffix : List Nat) (c : Nat) (r : List α) :
    LoopOut α :=
  match h : bufIndexOf cfg.eosSample suffix with
  | none => .more suffix c r
  | some i =>
    let sentence := cfg.dec (suffix.take i)
    let r1 := if sentence = [] then r
      else r ++ parseSentence cfg.eol cfg.eolNE cfg.lineParse sentence
    if c + 1 = cfg.maxEos then .done r1
    else loopRun cfg (suffix.drop (i + cfg.eosSample.length)) (c + 1) (r1 ++ [cfg.eosObject])
termination_by suffix.length
decreasing_by
  have hne : suffix ≠ [] := by
    intro hnil
    subst hnil
    cases hs : cfg.eosSample with
    | nil => exact cfg.sampleNE hs
    | cons a as => rw [hs] at h; simp [bufIndexOf, beginsWith] at h
  have hlen : 0 < cfg.eosSample.length := by
    cases hs : cfg.eosSample with
    | nil => exact absurd hs cfg.sampleNE
    | cons a as => simp [hs]
  have hs : 0 < suffix.length := List.length_pos.mpr hne
  simp only [List.length_drop]
  omega

/-- Embeds `MeCabReadTask.readData` together with `_concatBuffer`
(src/mecab-spawn.js:40-76): prepend the retained tail to the incoming chunk
and run the scanning loop; `Sum.inl` is the updated task (the method
returned `false`), `Sum.inr` is the resolved result (the method resolved the
promise and returned `true`). -/
def readData {α : Type} (cfg : RCfg α) (st : RState α) (chunk : List Nat) :
    RState α ⊕ List α :=
  match loopRun cfg (st.lastBuffer ++ chunk) st.eosCount st.result with
  | .more tail c r => .inl ⟨r, tail, c⟩
  | .done res => .inr res

/-- Delivery of one stdout chunk to a read task: once the task has resolved
(`Sum.inr`), further chunks no longer reach it (the stdout handler shifts it
off the queue), so they leave the resolved result unchanged. -/
def feed {α : Type} (cfg : RCfg α) (s : RState α ⊕ List α) (chunk : List Nat) :
    RState α ⊕ List α :=
  match s with
  | .inl st => readData cfg st chunk
  | .inr res => .inr res

/-- Runs a fresh read task on a single delivered chunk. -/
def readDataRun {α : Type} (cfg : RCfg α) (bytes : List Nat) : RState α ⊕ List α :=
  feed cfg (.inl RState.init) bytes

/-- Embeds the counting `while` loop of `MeCab._countSentences`
(src/mecab-spawn.js:284-296): repeatedly search for the detected terminator
convention `pat` and advance past each occurrence, counting them. -/
def countLb (pat : List Nat) (hp : pat ≠ []) (l : List Nat) : Nat :=
  match h : bufIndexOf pat l with
  | none => 0
  | some i => 1 + countLb pat hp (l.drop (i + pat.length))
termination_by l.length
decreasing_by
  have hne : l ≠ [] := by
    intro hnil
    subst hnil
    cases hs : pat with
    | nil => exact hp hs
    | cons a as => rw [hs] at h; simp [bufIndexOf, beginsWith] at h
  have hlen : 0 < pat.length := by
    cases hs : pat with
    | nil => exact absurd hs hp
    | cons a as => simp [hs]
  have hl : 0 < l.length := List.length_pos.mpr hne
  simp only [List.length_drop]
  omega

/-- Embeds `MeCab._countSentences` (src/mecab-spawn.js:258-297).  The
detection `for` loop (skipping bytes until the first CR or LF) becomes the
structural recursion; once the first terminator fixes the convention (LF, CR
or CRLF) it is counted as 1 and `countLb` counts its further occurrences
from just past it, exactly as the source's second loop does. -/
def countSentences : List Nat → Nat
  | [] => 0
  | b :: rest =>
    if b = LFb then 1 + countLb [LFb] (List.cons_ne_nil _ _) rest
    else if b = CRb then
      if rest.head? = some LFb then
        1 + countLb [CRb, LFb] (List.cons_ne_nil _ _) (rest.drop 1)
      else 1 + countLb [CRb] (List.cons_ne_nil _ _) rest
    else countSentences rest

/-- Modelled from the claim's words (spec §4.4 RequestSizer): the
line-termination convention in use, determined by the first terminator byte
sequence (CR, LF, or CRLF) encountered in the payload, or `none` when the
payload contains no terminator. -/
def firstConv : List Nat → Option (List Nat)
  | [] => none
  | b :: rest =>
    if b = LFb then some [LFb]
    else if b = CRb then
      if rest.head? = some LFb then some [CRb, LFb] else some [CRb]
    else firstConv rest

/-- Modelled from the claim's words: the number of positions of `l` at which
the byte sequence `pat` occurs. -/
def countPos (pat : List Nat) : List Nat → Nat
  | [] => 0
  | b :: rest => (if beginsWith pat (b :: rest) then 1 else 0) + countPos pat rest

/-- Modelled from the claim's words (C4): `N`, the number of occurrences of
the line-terminator convention determined by the first terminator
encountered, with `N = 0` when the payload contains no terminator. -/
def specLineBreakCount (buffer : List Nat) : Nat :=
  match firstConv buffer with
  | none => 0
  | some conv => countPos conv buffer

/-- Modelled from the claim's words (C9, spec §4.2 RecordDecoder): split a
text on the terminator `eol` into the list of segments it separates (one
more segment than there are occurrences). -/
def splitOnEol (eol : List Char) (he : eol ≠ []) (s : List Char) : List (List Char) :=
  match h : bufIndexOf eol s with
  | none => [s]
  | some i => s.take i :: splitOnEol eol he (s.drop (i + eol.length))
termination_by s.length
decreasing_by
  have hne : s ≠ [] := by
    intro hnil
    subst hnil
    cases heol : eol with
    | nil => exact he heol
    | cons a as => rw [heol] at h; simp [bufIndexOf, beginsWith] at h
  have hlen : 0 < eol.length := by
    cases heol : eol with
    | nil => exact absurd heol he
    | cons a as => simp [heol]
  have hs : 0 < s.length := List.length_pos.mpr hne
  simp only [List.length_drop]
  omega

/-- Modelled from the claim's words (C9): split the decoded text on the
platform line terminator into lines, dropping a final empty trailing line,
and parse each remaining line in order. -/
def specDecodeRange {α : Type} (eol : List Char) (he : eol ≠ []) (parse : List Char → α)
    (s : List Char) : List α :=
  let segs := splitOnEol eol he s
  let kept := if segs.getLast? = some [] then segs.dropLast else segs
  kept.map parse

/-- Configuration fields of a `MeCab` instance (src/mecab-spawn.js:119-125):
the sentinel sample (`_eosSample`), the boundary object (`_eosObject`), the
line parser (`lineParser`), the platform terminator `EOL`, the ambient UTF-8
decode used by `buffer.toString('utf8', ...)`, and the optional default
encoder/decoder hooks (`_encoder`, `_decoder`).  No modelled action mutates
these, matching the spec's "mutable only between operations". -/
structure MCfg (α : Type) where
  eosSample : List Nat
  sampleNE : eosSample ≠ []
  eosObject : α
  lineParse : List Char → α
  eol : List Char
  eolNE : eol ≠ []
  utf8 : List Nat → List Char
  defaultEnc : Option (List Nat → List Nat)
  defaultDec : Option (List Nat → List Char)

/-- Queued operations (`this._tasks` entries).  `id` numbers tasks in
submission order and identifies the task's promise; `settled` records
whether that promise has already been resolved or rejected (a JavaScript
promise settles at most once). -/
inductive MTask (α : Type) where
  | read (id : Nat) (rst : RState α) (rcfg : RCfg α) (settled : Bool)
  | kill (id : Nat) (signal : String) (settled : Bool)

/-- Identifier of a queued task. -/
def MTask.idOf {α : Type} : MTask α → Nat
  | .read i _ _ _ => i
  | .kill i _ _ => i

/-- Settled flag of a queued task. -/
def MTask.settledOf {α : Type} : MTask α → Bool
  | .read _ _ _ s => s
  | .kill _ _ s => s

/-- Marks a task's promise as settled. -/
def MTask.settle {α : Type} : MTask α → MTask α
  | .read i st c _ => .read i st c true
  | .kill i sg _ => .kill i sg true

/-- Observable side effects of the `MeCab` object, in the order they are
performed: writes to the subprocess stdin, signals sent to the process, and
settlements of task promises (resolutions of read results, resolutions of
kill messages, rejections). -/
inductive Ev (α : Type) where
  | writeB (bytes : List Nat)
  | writeEol
  | sig (signal : String)
  | res (id : Nat) (v : List α)
  | resK (id : Nat) (msg : String)
  | rej (id : Nat) (msg : String)
deriving DecidableEq

/-- Identifier carried by a completion (promise-settling) event, if any. -/
def evCompId {α : Type} : Ev α → Option Nat
  | .res i _ => some i
  | .resK i _ => some i
  | .rej i _ => some i
  | _ => none

/-- Identifiers of all completion events of a log, oldest first. -/
def completionIds {α : Type} (log : List (Ev α)) : List Nat :=
  log.filterMap evCompId

/-- State of one `MeCab` instance: its configuration, the task queue
(`this._tasks`), the next fresh task number, and the log of side effects
performed so far. -/
structure MState (α : Type) where
  cfg : MCfg α
  tasks : List (MTask α)
  nextId : Nat
  log : List (Ev α)

/-- Freshly spawned `MeCab` instance (src/mecab-spawn.js:119-150): empty
task queue, no side effects yet. -/
def initM {α : Type} (cfg : MCfg α) : MState α := ⟨cfg, [], 0, []⟩

/-- Side effects of `task.start()` (src/mecab-spawn.js:24,104-106): the base
`DeferredTask.start` — inherited by `MeCabReadTask` — does nothing, while
`MeCabKillTask.start` sends the stored signal to the process. -/
def startEvents {α : Type} : MTask α → List (Ev α)
  | .read _ _ _ _ => []
  | .kill _ sg _ => [.sig sg]

/-- Embeds `MeCab._addTask` (src/mecab-spawn.js:250-256): append the task;
if the queue was empty, immediately run the new task's `start()`. -/
def addTask {α : Type} (st : MState α) (t : MTask α) : MState α :=
  { st with tasks := st.tasks ++ [t],
            log := st.log ++ (if st.tasks.isEmpty then startEvents t else []) }

/-- Encoding applied to the outbound payload in `MeCab.analyze`
(src/mecab-spawn.js:160-165): the per-call encoder when given, else the
default encoder when set, else the raw bytes. -/
def encodeBuf {α : Type} (cfg : MCfg α) (optEnc : Option (List Nat → List Nat))
    (payload : List Nat) : List Nat :=
  match optEnc with
  | some e => e payload
  | none =>
    match cfg.defaultEnc with
    | some e => e payload
    | none => payload

/-- Decoder stored in the `MeCabReadTask` built by `MeCab.analyze`
(src/mecab-spawn.js:167 and 60-62): the per-call decoder when given, else
the default decoder when set, else the UTF-8 `buffer.toString` path. -/
def chooseDec {α : Type} (cfg : MCfg α) (optDec : Option (List Nat → List Char)) :
    List Nat → List Char :=
  match optDec with
  | some d => d
  | none =>
    match cfg.defaultDec with
    | some d => d
    | none => cfg.utf8

/-- Read-task configuration built by `MeCab.analyze` for one request: the
instance's sentinel sample, boundary object, parser and terminator, plus the
request's expected sentinel count and decoder. -/
def mkRCfg {α : Type} (cfg : MCfg α) (maxEos : Nat) (dec : List Nat → List Char) :
    RCfg α :=
  ⟨cfg.eosSample, cfg.sampleNE, cfg.eosObject, maxEos, dec, cfg.lineParse,
   cfg.eol, cfg.eolNE⟩

/-- Embeds `MeCab.analyze` (src/mecab-spawn.js:159-174): encode the payload,
size it with `_countSentences`, enqueue a fresh `MeCabReadTask` expecting
`lineBreaks + 1` sentinels, then unconditionally write the encoded payload
and the terminator to the subprocess stdin.  Note the writes happen here, at
submission time, whatever the queue holds. -/
def analyze {α : Type} (st : MState α) (payload : List Nat)
    (optEnc : Option (List Nat → List Nat)) (optDec : Option (List Nat → List Char)) :
    MState α :=
  let buffer := encodeBuf st.cfg optEnc payload
  let lineBreaks := countSentences buffer
  let task : MTask α :=
    .read st.nextId RState.init (mkRCfg st.cfg (lineBreaks + 1) (chooseDec st.cfg optDec)) false
  let st1 := addTask st task
  { st1 with nextId := st1.nextId + 1,
             log := st1.log ++ [.writeB buffer, .writeEol] }

/-- Embeds `MeCab._rejectAllTasks` (src/mecab-spawn.js:299-304): reject every
queued task with the given reason (settled promises ignore the call) and
clear the queue. -/
def rejectAllTasks {α : Type} (st : MState α) (reason : String) : MState α :=
  { st with tasks := [],
            log := st.log ++ st.tasks.filterMap
              (fun t => if t.settledOf then none else some (.rej t.idOf reason)) }

/-- Embeds `MeCab.kill` (src/mecab-spawn.js:182-187): when forced, first
reject every pending task, then enqueue a `MeCabKillTask` (which, if the
queue is now empty, starts at once and sends the signal). -/
def kill {α : Type} (st : MState α) (force : Bool) (signal : String) : MState α :=
  let st1 := if force then rejectAllTasks st "The process was interrupted immediately." else st
  let st2 := addTask st1 (.kill st1.nextId signal false)
  { st2 with nextId := st2.nextId + 1 }

/-- Settlement performed by the `close` handler on one task
(src/mecab-spawn.js:137-144): a truthy exit code rejects with the crash
message; a clean exit rejects pending reads and resolves pending kills with
the killed message.  `code = 0` models both exit code `0` and the `null`
code of a signal-terminated process, both falsy in the source's test. -/
def settleEv {α : Type} (code : Nat) : MTask α → Ev α
  | .read i _ _ _ =>
    if code ≠ 0 then .rej i ("MeCab process crushed. code:" ++ toString code)
    else .rej i "MeCab process is killed."
  | .kill i _ _ =>
    if code ≠ 0 then .rej i ("MeCab process crushed. code:" ++ toString code)
    else .resK i "MeCab process is killed."

/-- Embeds the `close` handler (src/mecab-spawn.js:136-146): every queued
task whose promise is still pending is settled according to the exit code;
the queue itself is not cleared (the source only iterates it), so the tasks
remain, now settled. -/
def closeEvent {α : Type} (st : MState α) (code : Nat) : MState α :=
  { st with log := st.log ++ st.tasks.filterMap
              (fun t => if t.settledOf then none else some (settleEv code t)),
            tasks := st.tasks.map MTask.settle }

/-- Embeds the `error` handler (src/mecab-spawn.js:147-149): reject all
pending tasks with the error. -/
def errorEvent {α : Type} (st : MState α) (err : String) : MState α :=
  rejectAllTasks st err

/-- Side effects of starting the new head after a completed task is shifted
(src/mecab-spawn.js:131-133). -/
def startHead {α : Type} : List (MTask α) → List (Ev α)
  | [] => []
  | t :: _ => startEvents t

/-- Resolution events produced when `readData` returns `true` and the head
task's promise is resolved: a settle-once promise emits nothing when already
settled. -/
def resEvents {α : Type} (sett : Bool) (i : Nat) (result : List α) : List (Ev α) :=
  if sett then [] else [Ev.res i result]

/-- Embeds the stdout `data` handler (src/mecab-spawn.js:127-135): the chunk
is routed to `this._tasks[0].readData`.  `none` models the uncaught
`TypeError` when the queue is empty or its head is a kill task (no
`readData` method); the instance state is unchanged in that case.  When
`readData` resolves the task, the resolution is logged (if its promise was
still pending), the task is shifted off, and the next head, if any, is
started.  Bytes of the chunk past the final expected sentinel are nowhere
retained. -/
def dataEvent {α : Type} (st : MState α) (chunk : List Nat) : Option (MState α) :=
  match st.tasks with
  | [] => none
  | .kill _ _ _ :: _ => none
  | .read i rst rcfg sett :: rest =>
    match readData rcfg rst chunk with
    | .inl rst2 => some { st with tasks := .read i rst2 rcfg sett :: rest }
    | .inr result =>
      some { st with tasks := rest,
                     log := st.log ++ resEvents sett i result ++ startHead rest }

/-- External stimuli driving one `MeCab` instance: request submissions,
stdout chunks, process exit, process error, and kill requests. -/
inductive Act (α : Type) where
  | analyze (payload : List Nat) (optEnc : Option (List Nat → List Nat))
      (optDec : Option (List Nat → List Char))
  | data (chunk : List Nat)
  | close (code : Nat)
  | error (err : String)
  | kill (force : Bool) (signal : String)

/-- One event-loop step: dispatch a stimulus to the corresponding handler.
A `data` event that would throw in the source (empty queue or kill task at
the head) leaves the state unchanged, as the exception propagates before any
mutation. -/
def step {α : Type} (st : MState α) : Act α → MState α
  | .analyze p oe od => analyze st p oe od
  | .data c => (dataEvent st c).getD st
  | .close code => closeEvent st code
  | .error e => errorEvent st e
  | .kill f s => kill st f s

/-- Runs a sequence of stimuli from a freshly spawned instance. -/
def runActs {α : Type} (cfg : MCfg α) (acts : List (Act α)) : MState α :=
  acts.foldl step (initM cfg)

/-- Result entries produced with the default configuration: parsed records
(string arrays from `line.split(/[\t,]/)`) and the boundary object, the
string `'EOS'`. -/
inductive Entry where
  | record (fields : List String)
  | mark (tag : String)
deriving DecidableEq

/-- Accumulator-style splitting used by `splitFields`. -/
def splitFieldsAux : List Char → List Char → List String
  | cur, [] => [String.mk cur.reverse]
  | cur, c :: rest =>
    if c = '\t' ∨ c = ',' then String.mk cur.reverse :: splitFieldsAux [] rest
    else splitFieldsAux (c :: cur) rest

/-- Embeds the default line parser `line => line.split(/[\t,]/)` built by
`MeCab.createLineParser` (src/mecab-spawn.js:124,239-241). -/
def splitFields (l : List Char) : List String := splitFieldsAux [] l

/-- ASCII reading of a byte list, standing in for `buffer.toString('utf8')`
on the all-ASCII example data. -/
def asciiDec (bs : List Nat) : List Char := bs.map Char.ofNat

/-- Recognizer of boundary-marker entries among default-configured results. -/
def isMarkEntry : Entry → Bool
  | .mark _ => true
  | .record _ => false

/-- Default-configured `MeCab` instance over ASCII data: sentinel sample
`'EOS\n'` (bytes 69,79,83,10), boundary object `'EOS'`, default line parser,
`'\n'` terminator. -/
def exMCfg : MCfg Entry where
  eosSample := [69, 79, 83, 10]
  sampleNE := by decide
  eosObject := .mark "EOS"
  lineParse := fun l => .record (splitFields l)
  eol := ['\n']
  eolNE := by decide
  utf8 := asciiDec
  defaultEnc := none
  defaultDec := none

/-- Read-task configuration of `exMCfg` with a given expected count. -/
def exRCfg (maxEos : Nat) : RCfg Entry := mkRCfg exMCfg maxEos asciiDec

/-- Bytes of the mock subprocess output `"a1\ta2\nEOS\nb1\tb2\nEOS\n"`. -/
def exBytes : List Nat :=
  [97, 49, 9, 97, 50, 10, 69, 79, 83, 10, 98, 49, 9, 98, 50, 10, 69, 79, 83, 10]

/-- Bytes of the mock subprocess output `"EOS\n"` alone. -/
def eosOnlyBytes : List Nat := [69, 79, 83, 10]

/-- Bytes of the mock subprocess output `"abcEOS\n"` (the segment before the
sentinel does not end with a terminator). -/
def abcEosBytes : List Nat := [97, 98, 99, 69, 79, 83, 10]

/-- Bytes of the one-byte payload `"A"`. -/
def pA : List Nat := [65]

/-- Bytes of the one-byte payload `"B"`. -/
def pB : List Nat := [66]

/-- Sequential delivery of a list of chunks to one fresh read task, the
later chunks being ignored once the task has resolved (in the source they go
to the next queued task). -/
def feedAll {α : Type} (cfg : RCfg α) (chunks : List (List Nat)) : RState α ⊕ List α :=
  chunks.foldl (feed cfg) (.inl RState.init)

/-- Queued tasks whose promise is still pending. -/
def pendingTasks {α : Type} (ts : List (MTask α)) : List (MTask α) :=
  ts.filter (fun t => !t.settledOf)

/-- Identifiers of the queued tasks, in queue order. -/
def taskIds {α : Type} (ts : List (MTask α)) : List Nat := ts.map MTask.idOf

/-- Identifiers of the still-pending queued tasks, in queue order. -/
def pendIds {α : Type} (ts : List (MTask α)) : List Nat :=
  (pendingTasks ts).map MTask.idOf

/-- Ordering invariant of a `MeCab` instance: completion events were logged
in increasing task order, queued task numbers increase along the queue,
every still-pending queued task is newer than every completed one, and all
task numbers are below the next fresh number. -/
def QueueInv {α : Type} (st : MState α) : Prop :=
  (completionIds st.log).Pairwise (· < ·) ∧
  (taskIds st.tasks).Pairwise (· < ·) ∧
  (∀ c ∈ completionIds st.log, ∀ u ∈ pendIds st.tasks, c < u) ∧
  (∀ q ∈ taskIds st.tasks, q < st.nextId) ∧
  (∀ c ∈ completionIds st.log, c < st.nextId)

theorem beginsWith_length {γ : Type} [DecidableEq γ] :
    ∀ {pat l : List γ}, beginsWith pat l = true → pat.length ≤ l.length := by
  intro pat
  induction pat with
  | nil => intro l _; simp
  | cons p ps ih =>
    intro l h
    cases l with
    | nil => simp [beginsWith] at h
    | cons x xs =>
      simp only [beginsWith, Bool.and_eq_true] at h
      have := ih h.2
      simp only [List.length_cons]
      omega

theorem beginsWith_append {γ : Type} [DecidableEq γ] :
    ∀ {pat l : List γ} (b : List γ), beginsWith pat l = true →
      beginsWith pat (l ++ b) = true := by
  intro pat
  induction pat with
  | nil => intro l b _; cases l <;> simp [beginsWith]
  | cons p ps ih =>
    intro l b h
    cases l with
    | nil => simp [beginsWith] at h
    | cons x xs =>
      simp only [beginsWith, Bool.and_eq_true] at h
      simp only [List.cons_append, beginsWith, Bool.and_eq_true]
      exact ⟨h.1, ih b h.2⟩

theorem beginsWith_append_of_le {γ : Type} [DecidableEq γ] :
    ∀ {pat l : List γ} (b : List γ), pat.length ≤ l.length →
      beginsWith pat (l ++ b) = beginsWith pat l := by
  intro pat
  induction pat with
  | nil => intro l b _; cases l <;> simp [beginsWith]
  | cons p ps ih =>
    intro l b h
    cases l with
    | nil => simp at h
    | cons x xs =>
      simp only [List.length_cons, Nat.add_le_add_iff_right] at h
      simp only [List.cons_append, beginsWith, List.append_eq]
      rw [ih b h]

theorem bufIndexOf_nil_pat {γ : Type} [DecidableEq γ] (l : List γ) :
    bufIndexOf ([] : List γ) l = some 0 := by
  cases l <;> simp [bufIndexOf, beginsWith]

theorem bufIndexOf_bound {γ : Type} [DecidableEq γ] {pat : List γ} :
    ∀ {l : List γ} {i : Nat}, bufIndexOf pat l = some i → i + pat.length ≤ l.length := by
  intro l
  induction l with
  | nil =>
    intro i h
    simp only [bufIndexOf] at h
    by_cases hb : beginsWith pat ([] : List γ) = true
    · rw [if_pos hb] at h
      injection h with h0
      have hlen := beginsWith_length hb
      simp only [List.length_nil] at hlen ⊢
      omega
    · rw [if_neg hb] at h
      exact absurd h (by simp)
  | cons x xs ih =>
    intro i h
    simp only [bufIndexOf] at h
    by_cases hb : beginsWith pat (x :: xs) = true
    · rw [if_pos hb] at h
      injection h with h0
      have hlen := beginsWith_length hb
      omega
    · rw [if_neg hb] at h
      cases hx : bufIndexOf pat xs with
      | none => rw [hx] at h; simp at h
      | some j =>
        rw [hx] at h
        simp at h
        have := ih hx
        simp only [List.length_cons]
        omega

theorem bufIndexOf_nil_of_ne {γ : Type} [DecidableEq γ] {pat : List γ} (hp : pat ≠ []) :
    bufIndexOf pat ([] : List γ) = none := by
  cases hs : pat with
  | nil => exact absurd hs hp
  | cons p ps => simp [bufIndexOf, beginsWith]

theorem bufIndexOf_append_some {γ : Type} [DecidableEq γ] {pat : List γ} :
    ∀ {a : List γ} (b : List γ) {i : Nat}, bufIndexOf pat a = some i →
      bufIndexOf pat (a ++ b) = some i := by
  intro a
  induction a with
  | nil =>
    intro b i h
    have hb : beginsWith pat ([] : List γ) = true := by
      by_contra hb
      simp only [bufIndexOf, if_neg hb] at h
      exact Option.noConfusion h
    have hpat : pat = [] := by
      cases pat with
      | nil => rfl
      | cons p ps => simp [beginsWith] at hb
    subst hpat
    rw [bufIndexOf_nil_pat] at h
    rw [List.nil_append, bufIndexOf_nil_pat]
    exact h
  | cons x xs ih =>
    intro b i h
    simp only [bufIndexOf] at h
    by_cases hb : beginsWith pat (x :: xs) = true
    · rw [if_pos hb] at h
      have hb2 := beginsWith_append b hb
      simp only [List.cons_append] at hb2 ⊢
      rw [bufIndexOf, if_pos hb2]
      exact h
    · rw [if_neg hb] at h
      cases hx : bufIndexOf pat xs with
      | none => rw [hx] at h; simp at h
      | some j =>
        rw [hx] at h
        simp at h
        have hbound := bufIndexOf_bound hx
        have hle : pat.length ≤ (x :: xs).length := by
          simp only [List.length_cons]
          omega
        have hb2 : beginsWith pat (x :: xs ++ b) = false := by
          rw [beginsWith_append_of_le b hle]
          simp [hb]
        simp only [List.cons_append] at hb2 ⊢
        rw [bufIndexOf, hb2]
        simp only [Bool.false_eq_true, if_false]
        rw [ih b hx]
        simp [h]

theorem loopRun_of_none {α : Type} (cfg : RCfg α) {suffix : List Nat} (c : Nat) (r : List α)
    (h : bufIndexOf cfg.eosSample suffix = none) :
    loopRun cfg suffix c r = .more suffix c r := by
  rw [loopRun.eq_def]
  split
  · rfl
  · rename_i i2 h2
    rw [h] at h2
    exact Option.noConfusion h2

theorem loopRun_of_some {α : Type} (cfg : RCfg α) {suffix : List Nat} {i : Nat}
    (c : Nat) (r : List α) (h : bufIndexOf cfg.eosSample suffix = some i) :
    loopRun cfg suffix c r =
      (if c + 1 = cfg.maxEos then
        LoopOut.done (if cfg.dec (suffix.take i) = [] then r
          else r ++ parseSentence cfg.eol cfg.eolNE cfg.lineParse (cfg.dec (suffix.take i)))
      else loopRun cfg (suffix.drop (i + cfg.eosSample.length)) (c + 1)
        ((if cfg.dec (suffix.take i) = [] then r
          else r ++ parseSentence cfg.eol cfg.eolNE cfg.lineParse (cfg.dec (suffix.take i)))
         ++ [cfg.eosObject])) := by
  rw [loopRun.eq_def]
  split
  · rename_i h2
    rw [h] at h2
    exact Option.noConfusion h2
  · rename_i j h2
    rw [h] at h2
    injection h2 with h3
    subst h3
    rfl

theorem loopRun_append_aux {α : Type} (cfg : RCfg α) :
    ∀ (n : Nat) (a : List Nat), a.length ≤ n → ∀ (b : List Nat) (c : Nat) (r : List α),
      loopRun cfg (a ++ b) c r =
        match loopRun cfg a c r with
        | .more t c2 r2 => loopRun cfg (t ++ b) c2 r2
        | .done res => .done res := by
  intro n
  induction n with
  | zero =>
    intro a ha b c r
    have hnil : a = [] := List.length_eq_zero.mp (Nat.le_zero.mp ha)
    subst hnil
    conv_rhs => rw [loopRun_of_none cfg c r (bufIndexOf_nil_of_ne cfg.sampleNE)]
  | succ n ih =>
    intro a ha b c r
    cases hfind : bufIndexOf cfg.eosSample a with
    | none =>
      rw [loopRun_of_none cfg c r hfind]
    | some i =>
      have hbound := bufIndexOf_bound hfind
      have hfind2 := bufIndexOf_append_some b hfind
      have hlen : 0 < cfg.eosSample.length := by
        cases hs : cfg.eosSample with
        | nil => exact absurd hs cfg.sampleNE
        | cons p ps => simp [hs]
      have htake : (a ++ b).take i = a.take i := by
        rw [List.take_append_eq_append_take]
        have h0 : i - a.length = 0 := by omega
        rw [h0]
        simp
      have hdrop : (a ++ b).drop (i + cfg.eosSample.length) =
          a.drop (i + cfg.eosSample.length) ++ b := by
        rw [List.drop_append_eq_append_drop]
        have h0 : i + cfg.eosSample.length - a.length = 0 := by omega
        rw [h0]
        simp
      rw [loopRun_of_some cfg c r hfind2, loopRun_of_some cfg c r hfind, htake, hdrop]
      by_cases hmax : c + 1 = cfg.maxEos
      · simp only [if_pos hmax]
      · simp only [if_neg hmax]
        exact ih (a.drop (i + cfg.eosSample.length))
          (by simp only [List.length_drop]; omega) b (c + 1) _

theorem loopRun_append {α : Type} (cfg : RCfg α) (a b : List Nat) (c : Nat) (r : List α) :
    loopRun cfg (a ++ b) c r =
      match loopRun cfg a c r with
      | .more t c2 r2 => loopRun cfg (t ++ b) c2 r2
      | .done res => .done res :=
  loopRun_append_aux cfg a.length a (Nat.le_refl _) b c r


theorem readData_eq_more {α : Type} (cfg : RCfg α) (st : RState α) (chunk : List Nat)
    {t : List Nat} {c2 : Nat} {r2 : List α}
    (h : loopRun cfg (st.lastBuffer ++ chunk) st.eosCount st.result = .more t c2 r2) :
    readData cfg st chunk = .inl ⟨r2, t, c2⟩ := by
  unfold readData
  rw [h]

theorem readData_eq_done {α : Type} (cfg : RCfg α) (st : RState α) (chunk : List Nat)
    {res : List α}
    (h : loopRun cfg (st.lastBuffer ++ chunk) st.eosCount st.result = .done res) :
    readData cfg st chunk = .inr res := by
  unfold readData
  rw [h]

theorem feed_append {α : Type} (cfg : RCfg α) (st : RState α) (a b : List Nat) :
    feed cfg (feed cfg (.inl st) a) b = feed cfg (.inl st) (a ++ b) := by
  have happ := loopRun_append cfg (st.lastBuffer ++ a) b st.eosCount st.result
  cases hL : loopRun cfg (st.lastBuffer ++ a) st.eosCount st.result with
  | more t c2 r2 =>
    rw [hL] at happ
    have h2 : loopRun cfg (st.lastBuffer ++ (a ++ b)) st.eosCount st.result =
        loopRun cfg (t ++ b) c2 r2 := by
      rw [← List.append_assoc]
      exact happ
    show feed cfg (readData cfg st a) b = readData cfg st (a ++ b)
    rw [readData_eq_more cfg st a hL]
    show readData cfg ⟨r2, t, c2⟩ b = readData cfg st (a ++ b)
    unfold readData
    dsimp only
    rw [h2]
  | done res =>
    rw [hL] at happ
    have h2 : loopRun cfg (st.lastBuffer ++ (a ++ b)) st.eosCount st.result =
        .done res := by
      rw [← List.append_assoc]
      exact happ
    show feed cfg (readData cfg st a) b = readData cfg st (a ++ b)
    rw [readData_eq_done cfg st a hL, readData_eq_done cfg st (a ++ b) h2]
    rfl

theorem foldl_feed_from {α : Type} (cfg : RCfg α) :
    ∀ (cs : List (List Nat)) (st : RState α) (a : List Nat),
      cs.foldl (feed cfg) (feed cfg (.inl st) a) = feed cfg (.inl st) (a ++ cs.flatten) := by
  intro cs
  induction cs with
  | nil => intro st a; simp
  | cons ch cs ih =>
    intro st a
    simp only [List.foldl_cons, List.flatten_cons]
    rw [feed_append cfg st a ch, ih st (a ++ ch), List.append_assoc]

theorem feed_nil_init {α : Type} (cfg : RCfg α) :
    feed cfg (.inl (RState.init : RState α)) [] = .inl RState.init := by
  show readData cfg RState.init [] = .inl RState.init
  apply readData_eq_more
  exact loopRun_of_none cfg 0 [] (bufIndexOf_nil_of_ne cfg.sampleNE)

theorem feedAll_eq_single {α : Type} (cfg : RCfg α) (cs : List (List Nat)) :
    feedAll cfg cs = readDataRun cfg cs.flatten := by
  cases cs with
  | nil =>
    show (.inl RState.init : RState α ⊕ List α) = feed cfg (.inl RState.init) [].flatten
    rw [List.flatten_nil, feed_nil_init]
  | cons ch cs =>
    show (cs.foldl (feed cfg) (feed cfg (.inl RState.init) ch)) =
      feed cfg (.inl RState.init) (ch :: cs).flatten
    rw [foldl_feed_from cfg cs RState.init ch, List.flatten_cons]

theorem parseSentence_of_none {α : Type} (eol : List Char) (he : eol ≠ [])
    (parse : List Char → α) {s : List Char} (h : bufIndexOf eol s = none) :
    parseSentence eol he parse s = [] := by
  rw [parseSentence.eq_def]
  split
  · rfl
  · rename_i i2 h2
    rw [h] at h2
    exact Option.noConfusion h2

theorem parseSentence_of_some {α : Type} (eol : List Char) (he : eol ≠ [])
    (parse : List Char → α) {s : List Char} {i : Nat} (h : bufIndexOf eol s = some i) :
    parseSentence eol he parse s =
      parse (s.take i) :: parseSentence eol he parse (s.drop (i + eol.length)) := by
  rw [parseSentence.eq_def]
  split
  · rename_i h2
    rw [h] at h2
    exact Option.noConfusion h2
  · rename_i j h2
    rw [h] at h2
    injection h2 with h3
    subst h3
    rfl

theorem splitOnEol_of_none (eol : List Char) (he : eol ≠ []) {s : List Char}
    (h : bufIndexOf eol s = none) : splitOnEol eol he s = [s] := by
  rw [splitOnEol.eq_def]
  split
  · rfl
  · rename_i i2 h2
    rw [h] at h2
    exact Option.noConfusion h2

theorem splitOnEol_of_some (eol : List Char) (he : eol ≠ []) {s : List Char} {i : Nat}
    (h : bufIndexOf eol s = some i) :
    splitOnEol eol he s = s.take i :: splitOnEol eol he (s.drop (i + eol.length)) := by
  rw [splitOnEol.eq_def]
  split
  · rename_i h2
    rw [h] at h2
    exact Option.noConfusion h2
  · rename_i j h2
    rw [h] at h2
    injection h2 with h3
    subst h3
    rfl

theorem splitOnEol_ne_nil (eol : List Char) (he : eol ≠ []) (s : List Char) :
    splitOnEol eol he s ≠ [] := by
  cases h : bufIndexOf eol s with
  | none => rw [splitOnEol_of_none eol he h]; simp
  | some i => rw [splitOnEol_of_some eol he h]; simp

theorem parseSentence_eq_dropLast_aux {α : Type} (eol : List Char) (he : eol ≠ [])
    (parse : List Char → α) :
    ∀ (n : Nat) (s : List Char), s.length ≤ n →
      parseSentence eol he parse s = ((splitOnEol eol he s).dropLast).map parse := by
  intro n
  induction n with
  | zero =>
    intro s hs
    have hnil : s = [] := List.length_eq_zero.mp (Nat.le_zero.mp hs)
    subst hnil
    rw [parseSentence_of_none eol he parse (bufIndexOf_nil_of_ne he),
        splitOnEol_of_none eol he (bufIndexOf_nil_of_ne he)]
    rfl
  | succ n ih =>
    intro s hs
    cases h : bufIndexOf eol s with
    | none =>
      rw [parseSentence_of_none eol he parse h, splitOnEol_of_none eol he h]
      rfl
    | some i =>
      have hbound := bufIndexOf_bound h
      have hlen : 0 < eol.length := by
        cases heol : eol with
        | nil => exact absurd heol he
        | cons a as => simp [heol]
      rw [parseSentence_of_some eol he parse h, splitOnEol_of_some eol he h]
      rw [List.dropLast_cons_of_ne_nil (splitOnEol_ne_nil eol he _)]
      rw [List.map_cons]
      rw [ih (s.drop (i + eol.length)) (by simp only [List.length_drop]; omega)]

theorem parseSentence_eq_dropLast {α : Type} (eol : List Char) (he : eol ≠ [])
    (parse : List Char → α) (s : List Char) :
    parseSentence eol he parse s = ((splitOnEol eol he s).dropLast).map parse :=
  parseSentence_eq_dropLast_aux eol he parse s.length s (Nat.le_refl _)

theorem countP_parseSentence_zero {α : Type} (eol : List Char) (he : eol ≠ [])
    (parse : List Char → α) (isMark : α → Bool)
    (hp : ∀ l, isMark (parse l) = false) (s : List Char) :
    (parseSentence eol he parse s).countP isMark = 0 := by
  rw [parseSentence_eq_dropLast eol he parse s]
  rw [List.countP_eq_zero]
  intro a ha
  obtain ⟨l, _, rfl⟩ := List.mem_map.mp ha
  simp [hp l]

theorem loopRun_done_countP_aux {α : Type} (cfg : RCfg α) (isMark : α → Bool)
    (hp : ∀ l, isMark (cfg.lineParse l) = false) (hm : isMark cfg.eosObject = true) :
    ∀ (n : Nat) (suffix : List Nat), suffix.length ≤ n →
      ∀ (c : Nat) (r res : List α), loopRun cfg suffix c r = .done res →
        res.countP isMark = r.countP isMark + (cfg.maxEos - 1 - c) ∧ c < cfg.maxEos := by
  intro n
  induction n with
  | zero =>
    intro s hs c r res h
    have hnil : s = [] := List.length_eq_zero.mp (Nat.le_zero.mp hs)
    subst hnil
    rw [loopRun_of_none cfg c r (bufIndexOf_nil_of_ne cfg.sampleNE)] at h
    exact LoopOut.noConfusion h
  | succ n ih =>
    intro s hs c r res h
    cases hfind : bufIndexOf cfg.eosSample s with
    | none =>
      rw [loopRun_of_none cfg c r hfind] at h
      exact LoopOut.noConfusion h
    | some i =>
      have hbound := bufIndexOf_bound hfind
      have hlen : 0 < cfg.eosSample.length := by
        cases hsmp : cfg.eosSample with
        | nil => exact absurd hsmp cfg.sampleNE
        | cons p ps => simp [hsmp]
      rw [loopRun_of_some cfg c r hfind] at h
      have hr1 : (if cfg.dec (s.take i) = [] then r
          else r ++ parseSentence cfg.eol cfg.eolNE cfg.lineParse (cfg.dec (s.take i))).countP
            isMark = r.countP isMark := by
        by_cases hd : cfg.dec (s.take i) = []
        · rw [if_pos hd]
        · rw [if_neg hd, List.countP_append,
            countP_parseSentence_zero cfg.eol cfg.eolNE cfg.lineParse isMark hp]
          omega
      by_cases hmax : c + 1 = cfg.maxEos
      · rw [if_pos hmax] at h
        injection h with h2
        subst h2
        constructor
        · rw [hr1]
          omega
        · omega
      · rw [if_neg hmax] at h
        have hrec := ih (s.drop (i + cfg.eosSample.length))
          (by simp only [List.length_drop]; omega) (c + 1) _ res h
        obtain ⟨h1, h2⟩ := hrec
        rw [List.countP_append, hr1] at h1
        constructor
        · rw [h1]
          simp [hm]
          omega
        · omega

theorem loopRun_done_countP {α : Type} (cfg : RCfg α) (isMark : α → Bool)
    (hp : ∀ l, isMark (cfg.lineParse l) = false) (hm : isMark cfg.eosObject = true)
    (bytes : List Nat) (res : List α) (h : loopRun cfg bytes 0 [] = .done res) :
    res.countP isMark + 1 = cfg.maxEos := by
  have := loopRun_done_countP_aux cfg isMark hp hm bytes.length bytes (Nat.le_refl _) 0 [] res h
  obtain ⟨h1, h2⟩ := this
  simp only [List.countP_nil] at h1
  omega

theorem countLb_of_none {pat : List Nat} (hp : pat ≠ []) {l : List Nat}
    (h : bufIndexOf pat l = none) : countLb pat hp l = 0 := by
  rw [countLb.eq_def]
  split
  · rfl
  · rename_i i2 h2
    rw [h] at h2
    exact Option.noConfusion h2

theorem countLb_of_some {pat : List Nat} (hp : pat ≠ []) {l : List Nat} {i : Nat}
    (h : bufIndexOf pat l = some i) :
    countLb pat hp l = 1 + countLb pat hp (l.drop (i + pat.length)) := by
  rw [countLb.eq_def]
  split
  · rename_i h2
    rw [h] at h2
    exact Option.noConfusion h2
  · rename_i j h2
    rw [h] at h2
    injection h2 with h3
    subst h3
    rfl

theorem countLb_cons_not {pat : List Nat} (hp : pat ≠ []) {b : Nat} {rest : List Nat}
    (hb : ¬ beginsWith pat (b :: rest) = true) :
    countLb pat hp (b :: rest) = countLb pat hp rest := by
  cases hx : bufIndexOf pat rest with
  | none =>
    have h1 : bufIndexOf pat (b :: rest) = none := by
      simp [bufIndexOf, if_neg hb, hx]
    rw [countLb_of_none hp h1, countLb_of_none hp hx]
  | some j =>
    have h1 : bufIndexOf pat (b :: rest) = some (j + 1) := by
      simp [bufIndexOf, if_neg hb, hx]
    rw [countLb_of_some hp h1, countLb_of_some hp hx]
    have h2 : j + 1 + pat.length = (j + pat.length) + 1 := by omega
    rw [h2, List.drop_succ_cons]

theorem countPos_cons (pat : List Nat) (b : Nat) (rest : List Nat) :
    countPos pat (b :: rest) =
      (if beginsWith pat (b :: rest) then 1 else 0) + countPos pat rest := rfl

theorem countLb_single (x : Nat) (hp : ([x] : List Nat) ≠ []) :
    ∀ l, countLb [x] hp l = countPos [x] l := by
  intro l
  induction l with
  | nil => rw [countLb_of_none hp (bufIndexOf_nil_of_ne hp)]; rfl
  | cons b rest ih =>
    by_cases hb : beginsWith [x] (b :: rest) = true
    · have h1 : bufIndexOf [x] (b :: rest) = some 0 := by
        simp only [bufIndexOf, if_pos hb]
      rw [countLb_of_some hp h1, countPos_cons, if_pos hb]
      simp only [List.length_cons, List.length_nil, Nat.zero_add, List.drop_succ_cons,
        List.drop_zero]
      rw [ih]
    · rw [countLb_cons_not hp hb, countPos_cons, if_neg hb, ih]
      omega

theorem countLb_crlf_aux (hp : ([CRb, LFb] : List Nat) ≠ []) :
    ∀ (n : Nat) (l : List Nat), l.length ≤ n → countLb [CRb, LFb] hp l = countPos [CRb, LFb] l := by
  intro n
  induction n with
  | zero =>
    intro l hl
    have hnil : l = [] := List.length_eq_zero.mp (Nat.le_zero.mp hl)
    subst hnil
    rw [countLb_of_none hp (bufIndexOf_nil_of_ne hp)]
    rfl
  | succ n ih =>
    intro l hl
    cases l with
    | nil =>
      rw [countLb_of_none hp (bufIndexOf_nil_of_ne hp)]
      rfl
    | cons b rest =>
      by_cases hb : beginsWith [CRb, LFb] (b :: rest) = true
      · have hbr : b = CRb ∧ beginsWith [LFb] rest = true := by
          simp only [beginsWith, Bool.and_eq_true, decide_eq_true_eq] at hb
          exact ⟨hb.1.symm, by
            cases rest with
            | nil => simp [beginsWith] at hb
            | cons y ys =>
              simp only [beginsWith, Bool.and_eq_true, decide_eq_true_eq] at hb
              simp [beginsWith, hb.2.1]⟩
        obtain ⟨hbCR, hrest⟩ := hbr
        cases rest with
        | nil => simp [beginsWith] at hrest
        | cons y ys =>
          have hyLF : y = LFb := by
            simp only [beginsWith, Bool.and_eq_true, decide_eq_true_eq] at hrest
            exact hrest.1.symm
          subst hbCR
          subst hyLF
          have h1 : bufIndexOf [CRb, LFb] (CRb :: LFb :: ys) = some 0 := by
            simp only [bufIndexOf, if_pos hb]
          rw [countLb_of_some hp h1]
          simp only [List.length_cons, List.length_nil, Nat.zero_add, List.drop_succ_cons,
            List.drop_zero]
          have hys : ys.length ≤ n := by
            simp only [List.length_cons] at hl
            omega
          rw [ih ys hys, countPos_cons, if_pos hb, countPos_cons]
          have hb2 : ¬ beginsWith [CRb, LFb] (LFb :: ys) = true := by
            simp [beginsWith, CRb, LFb]
          rw [if_neg hb2]
          omega
      · rw [countLb_cons_not hp hb, countPos_cons, if_neg hb]
        have hrest : rest.length ≤ n := by
          simp only [List.length_cons] at hl
          omega
        rw [ih rest hrest]
        omega

theorem firstConv_cases :
    ∀ {l conv : List Nat}, firstConv l = some conv →
      conv = [LFb] ∨ conv = [CRb] ∨ conv = [CRb, LFb] := by
  intro l
  induction l with
  | nil => intro conv h; exact Option.noConfusion h
  | cons b rest ih =>
    intro conv h
    simp only [firstConv] at h
    by_cases hLF : b = LFb
    · rw [if_pos hLF] at h
      injection h with h2
      exact Or.inl h2.symm
    · rw [if_neg hLF] at h
      by_cases hCR : b = CRb
      · rw [if_pos hCR] at h
        by_cases hHd : rest.head? = some LFb
        · rw [if_pos hHd] at h
          injection h with h2
          exact Or.inr (Or.inr h2.symm)
        · rw [if_neg hHd] at h
          injection h with h2
          exact Or.inr (Or.inl h2.symm)
      · rw [if_neg hCR] at h
        exact ih h

theorem countSentences_eq_spec : ∀ buffer : List Nat,
    countSentences buffer = specLineBreakCount buffer := by
  intro buffer
  induction buffer with
  | nil => rfl
  | cons b rest ih =>
    by_cases hLF : b = LFb
    · subst hLF
      have hfc : firstConv (LFb :: rest) = some [LFb] := by simp [firstConv]
      have hcs : countSentences (LFb :: rest) =
          1 + countLb [LFb] (List.cons_ne_nil _ _) rest := by
        simp [countSentences]
      rw [hcs, countLb_single LFb (List.cons_ne_nil _ _) rest]
      simp only [specLineBreakCount, hfc]
      rw [countPos_cons]
      have hb : beginsWith [LFb] (LFb :: rest) = true := by simp [beginsWith]
      rw [if_pos hb]
    · by_cases hCR : b = CRb
      · subst hCR
        by_cases hHd : rest.head? = some LFb
        · cases rest with
          | nil => simp at hHd
          | cons y ys =>
            have hyLF : y = LFb := by
              simp only [List.head?_cons, Option.some_inj] at hHd
              exact hHd
            subst hyLF
            have hfc : firstConv (CRb :: LFb :: ys) = some [CRb, LFb] := by
              simp [firstConv, CRb, LFb]
            have hcs : countSentences (CRb :: LFb :: ys) =
                1 + countLb [CRb, LFb] (List.cons_ne_nil _ _) ys := by
              simp [countSentences, CRb, LFb]
            rw [hcs, countLb_crlf_aux (List.cons_ne_nil _ _) ys.length ys (Nat.le_refl _)]
            simp only [specLineBreakCount, hfc]
            rw [countPos_cons, countPos_cons]
            have hb1 : beginsWith [CRb, LFb] (CRb :: LFb :: ys) = true := by
              simp [beginsWith]
            have hb2 : ¬ beginsWith [CRb, LFb] (LFb :: ys) = true := by
              simp [beginsWith, CRb, LFb]
            rw [if_pos hb1, if_neg hb2]
            omega
        · have hNE : CRb ≠ LFb := by decide
          have hfc : firstConv (CRb :: rest) = some [CRb] := by
            simp [firstConv, hNE, hHd]
          have hcs : countSentences (CRb :: rest) =
              1 + countLb [CRb] (List.cons_ne_nil _ _) rest := by
            simp [countSentences, hNE, hHd]
          rw [hcs, countLb_single CRb (List.cons_ne_nil _ _) rest]
          simp only [specLineBreakCount, hfc]
          rw [countPos_cons]
          have hb : beginsWith [CRb] (CRb :: rest) = true := by simp [beginsWith]
          rw [if_pos hb]
      · have hcs : countSentences (b :: rest) = countSentences rest := by
          simp [countSentences, hLF, hCR]
        have hfc : firstConv (b :: rest) = firstConv rest := by
          simp [firstConv, hLF, hCR]
        rw [hcs, ih]
        simp only [specLineBreakCount, hfc]
        cases hconv : firstConv rest with
        | none => rfl
        | some conv =>
          show countPos conv rest = countPos conv (b :: rest)
          rw [countPos_cons]
          have hb : ¬ beginsWith conv (b :: rest) = true := by
            rcases firstConv_cases hconv with h1 | h1 | h1 <;> subst h1 <;>
              simp [beginsWith, hLF, hCR] <;> intro hx <;> omega
          rw [if_neg hb]
          omega

theorem completionIds_append {α : Type} (l1 l2 : List (Ev α)) :
    completionIds (l1 ++ l2) = completionIds l1 ++ completionIds l2 :=
  List.filterMap_append l1 l2 evCompId

theorem completionIds_startEvents {α : Type} (t : MTask α) :
    completionIds (startEvents t) = [] := by
  cases t <;> rfl

theorem completionIds_startHead {α : Type} (ts : List (MTask α)) :
    completionIds (startHead ts) = [] := by
  cases ts with
  | nil => rfl
  | cons t ts => exact completionIds_startEvents t

theorem completionIds_resEvents {α : Type} (sett : Bool) (i : Nat) (result : List α) :
    completionIds (resEvents sett i result) = if sett then [] else [i] := by
  cases sett <;> simp [resEvents, completionIds, evCompId]

theorem taskIds_append {α : Type} (ts ts2 : List (MTask α)) :
    taskIds (ts ++ ts2) = taskIds ts ++ taskIds ts2 :=
  List.map_append MTask.idOf ts ts2

theorem taskIds_cons {α : Type} (t : MTask α) (ts : List (MTask α)) :
    taskIds (t :: ts) = t.idOf :: taskIds ts := rfl

theorem pendIds_append {α : Type} (ts ts2 : List (MTask α)) :
    pendIds (ts ++ ts2) = pendIds ts ++ pendIds ts2 := by
  simp [pendIds, pendingTasks, List.filter_append]

theorem pendIds_cons {α : Type} (t : MTask α) (ts : List (MTask α)) :
    pendIds (t :: ts) =
      if t.settledOf then pendIds ts else t.idOf :: pendIds ts := by
  by_cases hs : t.settledOf = true
  · simp [pendIds, pendingTasks, List.filter_cons, hs]
  · simp only [Bool.not_eq_true] at hs
    simp [pendIds, pendingTasks, List.filter_cons, hs]

theorem pendIds_sublist_taskIds {α : Type} (ts : List (MTask α)) :
    (pendIds ts).Sublist (taskIds ts) :=
  List.Sublist.map MTask.idOf (List.filter_sublist ts)

theorem pendIds_subset_taskIds {α : Type} {ts : List (MTask α)} {a : Nat}
    (h : a ∈ pendIds ts) : a ∈ taskIds ts :=
  (pendIds_sublist_taskIds ts).subset h

theorem completionIds_settleAll {α : Type} (f : MTask α → Ev α)
    (hf : ∀ t : MTask α, evCompId (f t) = some t.idOf) :
    ∀ ts : List (MTask α),
      completionIds (ts.filterMap (fun t => if t.settledOf then none else some (f t))) =
        pendIds ts := by
  intro ts
  induction ts with
  | nil => rfl
  | cons t ts ih =>
    by_cases hs : t.settledOf = true
    · rw [List.filterMap_cons, pendIds_cons, if_pos hs]
      simp only [hs, if_true]
      exact ih
    · simp only [Bool.not_eq_true] at hs
      rw [List.filterMap_cons, pendIds_cons]
      simp only [hs, Bool.false_eq_true, if_false]
      show completionIds (f t :: _) = _
      unfold completionIds
      rw [List.filterMap_cons, hf t]
      show t.idOf :: completionIds _ = _
      rw [ih]

theorem evCompId_rej {α : Type} (reason : String) :
    ∀ t : MTask α, evCompId (Ev.rej t.idOf reason : Ev α) = some t.idOf := by
  intro t
  rfl

theorem evCompId_settleEv {α : Type} (code : Nat) :
    ∀ t : MTask α, evCompId (settleEv code t) = some t.idOf := by
  intro t
  cases t with
  | read i rst rcfg sett =>
    by_cases hc : code ≠ 0 <;> simp [settleEv, MTask.idOf, evCompId, hc]
  | kill i sg sett =>
    by_cases hc : code ≠ 0 <;> simp [settleEv, MTask.idOf, evCompId, hc]

theorem taskIds_map_settle {α : Type} (ts : List (MTask α)) :
    taskIds (ts.map MTask.settle) = taskIds ts := by
  induction ts with
  | nil => rfl
  | cons t ts ih =>
    rw [List.map_cons, taskIds_cons, taskIds_cons, ih]
    cases t <;> rfl

theorem pendIds_map_settle {α : Type} (ts : List (MTask α)) :
    pendIds (ts.map MTask.settle) = [] := by
  induction ts with
  | nil => rfl
  | cons t ts ih =>
    rw [List.map_cons, pendIds_cons]
    have hs : (MTask.settle t).settledOf = true := by cases t <;> rfl
    rw [if_pos hs]
    exact ih

theorem analyze_log {α : Type} (st : MState α) (p : List Nat)
    (oe : Option (List Nat → List Nat)) (od : Option (List Nat → List Char)) :
    (analyze st p oe od).log =
      st.log ++ [Ev.writeB (encodeBuf st.cfg oe p), Ev.writeEol] := by
  simp [analyze, addTask, startEvents]

theorem analyze_tasks {α : Type} (st : MState α) (p : List Nat)
    (oe : Option (List Nat → List Nat)) (od : Option (List Nat → List Char)) :
    (analyze st p oe od).tasks = st.tasks ++
      [MTask.read st.nextId RState.init
        (mkRCfg st.cfg (countSentences (encodeBuf st.cfg oe p) + 1) (chooseDec st.cfg od))
        false] := by
  simp [analyze, addTask]

theorem analyze_nextId {α : Type} (st : MState α) (p : List Nat)
    (oe : Option (List Nat → List Nat)) (od : Option (List Nat → List Char)) :
    (analyze st p oe od).nextId = st.nextId + 1 := by
  simp [analyze, addTask]

theorem queueInv_analyze {α : Type} {st : MState α} (h : QueueInv st)
    (p : List Nat) (oe : Option (List Nat → List Nat)) (od : Option (List Nat → List Char)) :
    QueueInv (analyze st p oe od) := by
  obtain ⟨h1, h2, h3, h4, h5⟩ := h
  have hc2 : completionIds (analyze st p oe od).log = completionIds st.log := by
    rw [analyze_log, completionIds_append]
    simp [completionIds, evCompId]
  have ht2 : taskIds (analyze st p oe od).tasks = taskIds st.tasks ++ [st.nextId] := by
    rw [analyze_tasks, taskIds_append]
    rfl
  have hp2 : pendIds (analyze st p oe od).tasks = pendIds st.tasks ++ [st.nextId] := by
    rw [analyze_tasks, pendIds_append]
    rfl
  refine ⟨?_, ?_, ?_, ?_, ?_⟩
  · rw [hc2]; exact h1
  · rw [ht2]
    rw [List.pairwise_append]
    refine ⟨h2, List.pairwise_singleton _ _, ?_⟩
    intro a ha b hb
    simp only [List.mem_singleton] at hb
    subst hb
    exact h4 a ha
  · intro c hc u hu
    rw [hc2] at hc
    rw [hp2] at hu
    rcases List.mem_append.mp hu with hu | hu
    · exact h3 c hc u hu
    · simp only [List.mem_singleton] at hu
      subst hu
      exact h5 c hc
  · intro q hq
    rw [ht2] at hq
    rw [analyze_nextId]
    rcases List.mem_append.mp hq with hq | hq
    · exact Nat.lt_succ_of_lt (h4 q hq)
    · simp only [List.mem_singleton] at hq
      subst hq
      exact Nat.lt_succ_self _
  · intro c hc
    rw [hc2] at hc
    rw [analyze_nextId]
    exact Nat.lt_succ_of_lt (h5 c hc)

theorem rejectAll_log {α : Type} (st : MState α) (reason : String) :
    completionIds (rejectAllTasks st reason).log =
      completionIds st.log ++ pendIds st.tasks := by
  show completionIds (st.log ++ _) = _
  rw [completionIds_append,
    completionIds_settleAll (fun t => Ev.rej t.idOf reason) (evCompId_rej reason) st.tasks]

theorem queueInv_rejectAll {α : Type} {st : MState α} (h : QueueInv st) (reason : String) :
    QueueInv (rejectAllTasks st reason) := by
  obtain ⟨h1, h2, h3, h4, h5⟩ := h
  have hp : (rejectAllTasks st reason).tasks = [] := rfl
  refine ⟨?_, ?_, ?_, ?_, ?_⟩
  · rw [rejectAll_log]
    rw [List.pairwise_append]
    refine ⟨h1, h2.sublist (pendIds_sublist_taskIds st.tasks), h3⟩
  · rw [hp]; exact List.Pairwise.nil
  · intro c hc u hu
    rw [hp] at hu
    simp [pendIds, pendingTasks] at hu
  · intro q hq
    rw [hp] at hq
    simp [taskIds] at hq
  · intro c hc
    rw [rejectAll_log] at hc
    rcases List.mem_append.mp hc with hc | hc
    · exact h5 c hc
    · exact h4 _ (pendIds_subset_taskIds hc)

theorem queueInv_kill {α : Type} {st : MState α} (h : QueueInv st)
    (force : Bool) (signal : String) : QueueInv (kill st force signal) := by
  have hbase : ∀ st2 : MState α, QueueInv st2 →
      QueueInv { addTask st2 (.kill st2.nextId signal false) with
                 nextId := (addTask st2 (.kill st2.nextId signal false)).nextId + 1 } := by
    intro st2 h2
    obtain ⟨g1, g2, g3, g4, g5⟩ := h2
    have hlog : completionIds (addTask st2 (.kill st2.nextId signal false)).log =
        completionIds st2.log := by
      show completionIds (st2.log ++ _) = _
      rw [completionIds_append]
      by_cases he : st2.tasks.isEmpty
      · simp [he, completionIds, startEvents, evCompId]
      · simp [he, completionIds]
    have ht : (addTask st2 (.kill st2.nextId signal false)).tasks =
        st2.tasks ++ [.kill st2.nextId signal false] := rfl
    have hn : (addTask st2 (.kill st2.nextId signal false)).nextId = st2.nextId := rfl
    refine ⟨?_, ?_, ?_, ?_, ?_⟩
    · show (completionIds (addTask st2 (.kill st2.nextId signal false)).log).Pairwise _
      rw [hlog]; exact g1
    · show (taskIds ((addTask st2 (.kill st2.nextId signal false)).tasks)).Pairwise _
      rw [ht, taskIds_append]
      rw [List.pairwise_append]
      refine ⟨g2, List.pairwise_singleton _ _, ?_⟩
      intro a ha b hb
      simp only [taskIds, List.map_cons, List.map_nil, List.mem_singleton] at hb
      subst hb
      exact g4 a ha
    · intro c hc u hu
      rw [hlog] at hc
      rw [ht, pendIds_append] at hu
      rcases List.mem_append.mp hu with hu | hu
      · exact g3 c hc u hu
      · simp only [pendIds, pendingTasks, List.filter_cons, List.filter_nil,
          MTask.settledOf, Bool.not_false, if_pos, List.map_cons, List.map_nil,
          List.mem_singleton] at hu
        subst hu
        exact g5 c hc
    · intro q hq
      rw [ht, taskIds_append] at hq
      show q < (addTask st2 (.kill st2.nextId signal false)).nextId + 1
      rw [hn]
      rcases List.mem_append.mp hq with hq | hq
      · exact Nat.lt_succ_of_lt (g4 q hq)
      · simp only [taskIds, List.map_cons, List.map_nil, List.mem_singleton] at hq
        subst hq
        exact Nat.lt_succ_self _
    · intro c hc
      rw [hlog] at hc
      show c < (addTask st2 (.kill st2.nextId signal false)).nextId + 1
      rw [hn]
      exact Nat.lt_succ_of_lt (g5 c hc)
  unfold kill
  by_cases hf : force = true
  · rw [if_pos hf]
    exact hbase _ (queueInv_rejectAll h _)
  · simp only [Bool.not_eq_true] at hf
    rw [hf]
    simp only [Bool.false_eq_true, if_false]
    exact hbase _ h

theorem queueInv_close {α : Type} {st : MState α} (h : QueueInv st) (code : Nat) :
    QueueInv (closeEvent st code) := by
  obtain ⟨h1, h2, h3, h4, h5⟩ := h
  have hlog : completionIds (closeEvent st code).log =
      completionIds st.log ++ pendIds st.tasks := by
    show completionIds (st.log ++ _) = _
    rw [completionIds_append,
      completionIds_settleAll (settleEv code) (evCompId_settleEv code) st.tasks]
  have ht : taskIds (closeEvent st code).tasks = taskIds st.tasks :=
    taskIds_map_settle st.tasks
  have hp : pendIds (closeEvent st code).tasks = [] := pendIds_map_settle st.tasks
  refine ⟨?_, ?_, ?_, ?_, ?_⟩
  · rw [hlog, List.pairwise_append]
    refine ⟨h1, h2.sublist (pendIds_sublist_taskIds st.tasks), h3⟩
  · rw [ht]; exact h2
  · intro c hc u hu
    rw [hp] at hu
    simp at hu
  · intro q hq
    rw [ht] at hq
    exact h4 q hq
  · intro c hc
    rw [hlog] at hc
    rcases List.mem_append.mp hc with hc | hc
    · exact h5 c hc
    · exact h4 _ (pendIds_subset_taskIds hc)

theorem dataEvent_none_of_nil {α : Type} (st : MState α) (chunk : List Nat)
    (hts : st.tasks = []) : dataEvent st chunk = none := by
  unfold dataEvent
  rw [hts]

theorem dataEvent_none_of_kill {α : Type} (st : MState α) (chunk : List Nat)
    {i : Nat} {sg : String} {sett : Bool} {rest : List (MTask α)}
    (hts : st.tasks = MTask.kill i sg sett :: rest) : dataEvent st chunk = none := by
  unfold dataEvent
  rw [hts]

theorem dataEvent_inl {α : Type} (st : MState α) (chunk : List Nat)
    {i : Nat} {rst rst2 : RState α} {rcfg : RCfg α} {sett : Bool} {rest : List (MTask α)}
    (hts : st.tasks = MTask.read i rst rcfg sett :: rest)
    (hrd : readData rcfg rst chunk = .inl rst2) :
    dataEvent st chunk = some { st with tasks := MTask.read i rst2 rcfg sett :: rest } := by
  unfold dataEvent
  rw [hts]
  dsimp only
  rw [hrd]

theorem dataEvent_inr {α : Type} (st : MState α) (chunk : List Nat)
    {i : Nat} {rst : RState α} {rcfg : RCfg α} {sett : Bool} {rest : List (MTask α)}
    {result : List α}
    (hts : st.tasks = MTask.read i rst rcfg sett :: rest)
    (hrd : readData rcfg rst chunk = .inr result) :
    dataEvent st chunk = some { st with tasks := rest,
                                        log := st.log ++ resEvents sett i result ++
                                          startHead rest } := by
  unfold dataEvent
  rw [hts]
  dsimp only
  rw [hrd]

theorem queueInv_data {α : Type} {st : MState α} (h : QueueInv st) (chunk : List Nat) :
    QueueInv ((dataEvent st chunk).getD st) := by
  obtain ⟨h1, h2, h3, h4, h5⟩ := h
  cases hts : st.tasks with
  | nil =>
    rw [dataEvent_none_of_nil st chunk hts]
    exact ⟨h1, h2, h3, h4, h5⟩
  | cons t rest =>
    cases t with
    | kill i sg sett =>
      rw [dataEvent_none_of_kill st chunk hts]
      exact ⟨h1, h2, h3, h4, h5⟩
    | read i rst rcfg sett =>
      cases hrd : readData rcfg rst chunk with
      | inl rst2 =>
        rw [dataEvent_inl st chunk hts hrd, Option.getD_some]
        rw [hts] at h2 h3 h4
        refine ⟨h1, ?_, ?_, ?_, h5⟩
        · exact h2
        · intro c hc u hu
          refine h3 c hc u ?_
          rw [pendIds_cons] at hu ⊢
          exact hu
        · intro q hq
          exact h4 q hq
      | inr result =>
        rw [dataEvent_inr st chunk hts hrd, Option.getD_some]
        rw [hts, taskIds_cons] at h2 h4
        rw [hts, pendIds_cons] at h3
        simp only [MTask.settledOf, MTask.idOf] at h2 h3 h4
        have hcl : completionIds (st.log ++ resEvents sett i result ++ startHead rest)
            = completionIds st.log ++ (if sett then [] else [i]) := by
          rw [completionIds_append, completionIds_append, completionIds_startHead,
            completionIds_resEvents]
          simp
        have hipend : ∀ u ∈ pendIds rest, i < u := by
          intro u hu
          exact (List.pairwise_cons.mp h2).1 u (pendIds_subset_taskIds hu)
        refine ⟨?_, h2.of_cons, ?_, ?_, ?_⟩
        · show (completionIds
            (st.log ++ resEvents sett i result ++ startHead rest)).Pairwise (· < ·)
          rw [hcl]
          by_cases hs : sett = true
          · simpa [hs] using h1
          · simp only [Bool.not_eq_true] at hs
            subst hs
            simp only [Bool.false_eq_true, if_false]
            rw [List.pairwise_append]
            refine ⟨h1, List.pairwise_singleton _ _, ?_⟩
            intro a ha b hb
            simp only [List.mem_singleton] at hb
            subst hb
            have h3a := h3 a ha
            simp only [Bool.false_eq_true, if_false] at h3a
            exact h3a b (List.mem_cons_self _ _)
        · intro c hc u hu
          show c < u
          have hc2 : c ∈ completionIds st.log ++ (if sett then [] else [i]) := by
            rw [← hcl]
            exact hc
          have hu2 : u ∈ pendIds rest := hu
          by_cases hs : sett = true
          · subst hs
            simp only [if_pos] at hc2 h3
            simp only [List.append_nil] at hc2
            exact h3 c hc2 u hu2
          · simp only [Bool.not_eq_true] at hs
            subst hs
            simp only [Bool.false_eq_true, if_false] at hc2 h3
            rcases List.mem_append.mp hc2 with hc3 | hc3
            · exact h3 c hc3 u (List.mem_cons_of_mem _ hu2)
            · simp only [List.mem_singleton] at hc3
              subst hc3
              exact hipend u hu2
        · intro q hq
          show q < st.nextId
          exact h4 q (List.mem_cons_of_mem _ hq)
        · intro c hc
          show c < st.nextId
          have hc2 : c ∈ completionIds st.log ++ (if sett then [] else [i]) := by
            rw [← hcl]
            exact hc
          by_cases hs : sett = true
          · subst hs
            simp only [if_pos, List.append_nil] at hc2
            exact h5 c hc2
          · simp only [Bool.not_eq_true] at hs
            subst hs
            simp only [Bool.false_eq_true, if_false] at hc2
            rcases List.mem_append.mp hc2 with hc3 | hc3
            · exact h5 c hc3
            · simp only [List.mem_singleton] at hc3
              subst hc3
              exact h4 c (List.mem_cons_self _ _)

theorem queueInv_step {α : Type} {st : MState α} (h : QueueInv st) (a : Act α) :
    QueueInv (step st a) := by
  cases a with
  | analyze p oe od => exact queueInv_analyze h p oe od
  | data c => exact queueInv_data h c
  | close code => exact queueInv_close h code
  | error e => exact queueInv_rejectAll h e
  | kill f sg => exact queueInv_kill h f sg

theorem queueInv_init {α : Type} (cfg : MCfg α) : QueueInv (initM cfg) := by
  refine ⟨List.Pairwise.nil, List.Pairwise.nil, ?_, ?_, ?_⟩ <;>
    intro x hx <;> simp [initM, completionIds, taskIds, pendIds, pendingTasks] at hx

theorem queueInv_run {α : Type} (cfg : MCfg α) (acts : List (Act α)) :
    QueueInv (runActs cfg acts) := by
  unfold runActs
  have : ∀ (as : List (Act α)) (st : MState α), QueueInv st → QueueInv (as.foldl step st) := by
    intro as
    induction as with
    | nil => intro st h; exact h
    | cons a as ih =>
      intro st h
      exact ih (step st a) (queueInv_step h a)
  exact this acts (initM cfg) (queueInv_init cfg)

theorem filterMap_pending {α : Type} {β : Type} (f : MTask α → β) :
    ∀ ts : List (MTask α),
      ts.filterMap (fun t => if t.settledOf then none else some (f t)) =
        (pendingTasks ts).map f := by
  intro ts
  induction ts with
  | nil => rfl
  | cons t ts ih =>
    by_cases hs : t.settledOf = true
    · simp only [List.filterMap_cons, hs, if_true, pendingTasks, List.filter_cons,
        Bool.not_true, Bool.false_eq_true, if_false]
      show _ = (pendingTasks ts).map f
      exact ih
    · simp only [Bool.not_eq_true] at hs
      simp only [List.filterMap_cons, hs, Bool.false_eq_true, if_false, pendingTasks,
        List.filter_cons, Bool.not_false, if_true, List.map_cons]
      show f t :: _ = f t :: (pendingTasks ts).map f
      rw [ih]

/-- C1 (counterexample): against the mock output `"a1\ta2\nEOS\nb1\tb2\nEOS\n"`
with sentinel `"EOS\n"` and expected count 2, the code resolves with
`[["a1","a2"], "EOS", ["b1","b2"]]` — the final expected sentinel does NOT
contribute a boundary marker, contradicting the claimed
`[["a1","a2"], "EOS", ["b1","b2"], "EOS"]`; likewise output `"EOS\n"` with
expected count 1 resolves to `[]`, not `["EOS"]`. -/
theorem c1_counterexample :
    readDataRun (exRCfg 2) exBytes =
      .inr [.record ["a1", "a2"], .mark "EOS", .record ["b1", "b2"]] ∧
    ([Entry.record ["a1", "a2"], .mark "EOS", .record ["b1", "b2"]] : List Entry) ≠
      [.record ["a1", "a2"], .mark "EOS", .record ["b1", "b2"], .mark "EOS"] ∧
    readDataRun (exRCfg 1) eosOnlyBytes = .inr [] ∧
    ([] : List Entry) ≠ [Entry.mark "EOS"] := by
  refine ⟨?_, by decide, ?_, by decide⟩
  · simp [readDataRun, feed, readData, RState.init, exRCfg, mkRCfg, exMCfg, exBytes,
      loopRun, bufIndexOf, beginsWith, parseSentence, asciiDec, splitFields,
      splitFieldsAux, Char.ofNat]
  · simp [readDataRun, feed, readData, RState.init, exRCfg, mkRCfg, exMCfg, eosOnlyBytes,
      loopRun, bufIndexOf, beginsWith, parseSentence, asciiDec]

/-- C1 (amended): every found sentinel occurrence EXCEPT the final expected
one contributes one boundary marker to the resolved result: a completed
operation's result carries exactly `maxEos - 1` markers (the resolution on
reaching the expected count happens before that final marker would be
appended).  Concretely, the P4 example resolves to
`[["a1","a2"], "EOS", ["b1","b2"]]` and the P5 example to `[]`. -/
theorem c1_boundary_markers :
    (∀ (α : Type) (cfg : RCfg α) (isMark : α → Bool) (bytes : List Nat) (res : List α),
        (∀ l, isMark (cfg.lineParse l) = false) → isMark cfg.eosObject = true →
        loopRun cfg bytes 0 [] = .done res → res.countP isMark + 1 = cfg.maxEos) ∧
    readDataRun (exRCfg 2) exBytes =
      .inr [.record ["a1", "a2"], .mark "EOS", .record ["b1", "b2"]] ∧
    readDataRun (exRCfg 1) eosOnlyBytes = .inr [] := by
  refine ⟨?_, ?_, ?_⟩
  · intro α cfg isMark bytes res hp hm h
    exact loopRun_done_countP cfg isMark hp hm bytes res h
  · simp [readDataRun, feed, readData, RState.init, exRCfg, mkRCfg, exMCfg, exBytes,
      loopRun, bufIndexOf, beginsWith, parseSentence, asciiDec, splitFields,
      splitFieldsAux, Char.ofNat]
  · simp [readDataRun, feed, readData, RState.init, exRCfg, mkRCfg, exMCfg, eosOnlyBytes,
      loopRun, bufIndexOf, beginsWith, parseSentence, asciiDec]

/-- C1 (witness): the marker-count law applied to the concrete P4 run: the
resolved list holds one marker, and 1 + 1 equals the expected count 2. -/
theorem c1_witness :
    ([Entry.record ["a1", "a2"], Entry.mark "EOS", Entry.record ["b1", "b2"]].countP
      isMarkEntry) + 1 = (exRCfg 2).maxEos :=
  c1_boundary_markers.1 Entry (exRCfg 2) isMarkEntry exBytes
    [Entry.record ["a1", "a2"], Entry.mark "EOS", Entry.record ["b1", "b2"]]
    (fun _ => rfl) rfl
    (by simp [exRCfg, mkRCfg, exMCfg, exBytes, loopRun, bufIndexOf, beginsWith,
      parseSentence, asciiDec, splitFields, splitFieldsAux, Char.ofNat])

/-- C2: delivering the response bytes in any sequence of chunks drives the
read task to exactly the same outcome (same retained state, and on
completion the same resolved result) as delivering the concatenation as one
single chunk — including splits in the middle of the sentinel. -/
theorem c2_chunk_invariance : ∀ (α : Type) (cfg : RCfg α) (chunks : List (List Nat)),
    feedAll cfg chunks = readDataRun cfg chunks.flatten :=
  fun _ cfg chunks => feedAll_eq_single cfg chunks

/-- C3 (counterexample): submitting two requests `"A"` then `"B"` writes both
payloads (each followed by the terminator) to the subprocess stdin while no
completion whatsoever has been logged and both read tasks are still queued —
the second payload is written long before the first request's expected
sentinel count has been observed. -/
theorem c3_counterexample :
    (analyze (analyze (initM exMCfg) pA none none) pB none none).log =
      [Ev.writeB pA, Ev.writeEol, Ev.writeB pB, Ev.writeEol] ∧
    completionIds (analyze (analyze (initM exMCfg) pA none none) pB none none).log = [] ∧
    (analyze (analyze (initM exMCfg) pA none none) pB none none).tasks.length = 2 := by
  refine ⟨?_, ?_, ?_⟩ <;> rfl

/-- C3 (amended): a ReadOperation's payload plus terminator is written to the
subprocess input immediately during submission (`analyze`), regardless of the
operation's position in the TaskQueue; the queued start side effect of a
ReadOperation is a no-op, so becoming head of the queue triggers no write.
Only KillOperations defer their side effect to queue-head time. -/
theorem c3_amended : ∀ (α : Type) (st : MState α) (p : List Nat)
    (oe : Option (List Nat → List Nat)) (od : Option (List Nat → List Char)),
    (analyze st p oe od).log = st.log ++ [Ev.writeB (encodeBuf st.cfg oe p), Ev.writeEol] ∧
    (∀ (i : Nat) (rst : RState α) (rcfg : RCfg α) (sett : Bool),
      startEvents (MTask.read i rst rcfg sett) = []) := by
  intro α st p oe od
  exact ⟨analyze_log st p oe od, fun _ _ _ _ => rfl⟩

/-- C4: the expected sentinel count of the ReadOperation built by `analyze`
is `N + 1` where `N` is the number of occurrences, in the outbound payload,
of the line-terminator convention (LF, CR, or CRLF) fixed by the first
terminator encountered — `N = 0` when there is no terminator — so at least
one sentinel is always expected. -/
theorem c4_expected_count : ∀ (buffer : List Nat),
    countSentences buffer = specLineBreakCount buffer ∧
    1 ≤ countSentences buffer + 1 ∧
    ∀ (α : Type) (st : MState α) (oe : Option (List Nat → List Nat))
      (od : Option (List Nat → List Char)) (p : List Nat),
      (analyze st p oe od).tasks = st.tasks ++
        [MTask.read st.nextId RState.init
          (mkRCfg st.cfg (countSentences (encodeBuf st.cfg oe p) + 1)
            (chooseDec st.cfg od)) false] := by
  intro buffer
  exact ⟨countSentences_eq_spec buffer, by omega,
    fun _ st oe od p => analyze_tasks st p oe od⟩

/-- C5: across every sequence of stimuli (submissions, arbitrarily chunked or
delayed stdout data, exits, errors, kill requests), the completion events in
the log carry strictly increasing task numbers — since tasks are numbered in
submission order, requests complete (resolve or reject) in exactly the order
they were submitted. -/
theorem c5_completion_order : ∀ (α : Type) (cfg : MCfg α) (acts : List (Act α)),
    (completionIds (runActs cfg acts).log).Pairwise (· < ·) :=
  fun _ cfg acts => (queueInv_run cfg acts).1

/-- C6: the close handler settles exactly the still-pending queued
operations, in queue order: on a non-zero exit code every pending operation
(read or kill) is rejected with the crash message, and on a clean exit
pending reads are rejected with the process-terminated message while pending
kills are resolved with it; afterwards every queued task is settled. -/
theorem c6_close_settlement : ∀ (α : Type) (st : MState α) (code : Nat),
    (closeEvent st code).log = st.log ++ (pendingTasks st.tasks).map (settleEv code) ∧
    (∀ t ∈ (closeEvent st code).tasks, t.settledOf = true) ∧
    (code ≠ 0 → ∀ t : MTask α,
      settleEv code t = .rej t.idOf ("MeCab process crushed. code:" ++ toString code)) ∧
    (∀ (i : Nat) (rst : RState α) (rcfg : RCfg α) (sett : Bool),
      settleEv 0 (.read i rst rcfg sett) = .rej i "MeCab process is killed.") ∧
    (∀ (i : Nat) (sg : String) (sett : Bool),
      settleEv 0 (MTask.kill i sg sett : MTask α) = .resK i "MeCab process is killed.") := by
  intro α st code
  refine ⟨?_, ?_, ?_, ?_, ?_⟩
  · show st.log ++ _ = _
    rw [filterMap_pending]
  · intro t ht
    have ht2 : t ∈ st.tasks.map MTask.settle := ht
    obtain ⟨t0, _, rfl⟩ := List.mem_map.mp ht2
    cases t0 <;> rfl
  · intro hc t
    cases t with
    | read i rst rcfg sett => simp [settleEv, hc, MTask.idOf]
    | kill i sg sett => simp [settleEv, hc, MTask.idOf]
  · intro i rst rcfg sett
    simp [settleEv]
  · intro i sg sett
    simp [settleEv]

/-- C6 (witness): concrete settlements — a crash code rejects a pending kill
task with the crash message, a clean exit resolves it. -/
theorem c6_witness :
    settleEv 3 (MTask.kill 0 "SIGTERM" false : MTask Entry) =
      Ev.rej 0 ("MeCab process crushed. code:" ++ toString 3) ∧
    settleEv 0 (MTask.kill 0 "SIGTERM" false : MTask Entry) =
      Ev.resK 0 "MeCab process is killed." := by
  refine ⟨?_, ?_⟩
  · exact (c6_close_settlement Entry (initM exMCfg) 3).2.2.1 (by decide)
      (MTask.kill 0 "SIGTERM" false)
  · exact (c6_close_settlement Entry (initM exMCfg) 0).2.2.2.2 0 "SIGTERM" false

/-- C7 (counterexample): a non-forced kill on an idle instance sends the
signal at once, yet logs no completion — the termination future is still
pending after the signal is issued, and only the later process close event
resolves it (with the killed message). -/
theorem c7_counterexample :
    (kill (initM exMCfg) false "SIGTERM").log = [Ev.sig "SIGTERM"] ∧
    completionIds (kill (initM exMCfg) false "SIGTERM").log = [] ∧
    (closeEvent (kill (initM exMCfg) false "SIGTERM") 0).log =
      [Ev.sig "SIGTERM", Ev.resK 0 "MeCab process is killed."] := by
  refine ⟨rfl, rfl, rfl⟩

/-- C7 (amended): a KillOperation issues the termination signal as its side
effect when started, but its future does NOT resolve then: starting it logs
no completion event, and the future resolves only when the process close
event fires (with the killed-success message on clean exit). -/
theorem c7_kill_resolution : ∀ (α : Type) (st : MState α) (sg : String),
    st.tasks = [] →
    (kill st false sg).log = st.log ++ [Ev.sig sg] ∧
    (kill st false sg).tasks = [MTask.kill st.nextId sg false] ∧
    completionIds (kill st false sg).log = completionIds st.log ∧
    (closeEvent (kill st false sg) 0).log =
      (kill st false sg).log ++ [Ev.resK st.nextId "MeCab process is killed."] := by
  intro α st sg h
  refine ⟨?_, ?_, ?_, ?_⟩
  · simp [kill, addTask, h, startEvents]
  · simp [kill, addTask, h]
  · simp [kill, addTask, h, startEvents, completionIds_append, completionIds, evCompId]
  · simp [closeEvent, kill, addTask, h, startEvents, settleEv, MTask.settledOf,
      MTask.idOf]

/-- C7 (witness): the amended law at a freshly spawned idle instance. -/
theorem c7_witness :
    (kill (initM exMCfg) false "SIGTERM").log =
      (initM exMCfg).log ++ [Ev.sig "SIGTERM"] ∧
    (kill (initM exMCfg) false "SIGTERM").tasks =
      [MTask.kill (initM exMCfg).nextId "SIGTERM" false] ∧
    completionIds (kill (initM exMCfg) false "SIGTERM").log =
      completionIds (initM exMCfg).log ∧
    (closeEvent (kill (initM exMCfg) false "SIGTERM") 0).log =
      (kill (initM exMCfg) false "SIGTERM").log ++
        [Ev.resK (initM exMCfg).nextId "MeCab process is killed."] :=
  c7_kill_resolution Entry (initM exMCfg) "SIGTERM" rfl

/-- C8: forced termination first rejects every still-pending queued
operation (in queue order, with the interruption message) and only then
issues the kill signal; the termination task itself is left as the sole
queued task, still unsettled — so all pending read futures are rejected
before the termination future can resolve. -/
theorem c8_forced_kill : ∀ (α : Type) (st : MState α) (sg : String),
    (kill st true sg).log = st.log ++
      (pendingTasks st.tasks).map
        (fun t => Ev.rej t.idOf "The process was interrupted immediately.") ++
      [Ev.sig sg] ∧
    (kill st true sg).tasks = [MTask.kill st.nextId sg false] := by
  intro α st sg
  constructor
  · have h1 : (rejectAllTasks st "The process was interrupted immediately.").tasks = [] :=
      rfl
    show ((st.log ++ _) ++ _) = _
    rw [filterMap_pending]
    simp [h1, startEvents]
  · rfl

/-- C9 (counterexample): the byte range before the sentinel in `"abcEOS\n"`
decodes to `"abc"`, whose split on the terminator is the single non-empty
line `"abc"` — the claimed rule (drop only a final EMPTY trailing line)
predicts the record `["abc"]`, but the code emits no record at all: it
drops the whole unterminated final segment. -/
theorem c9_counterexample :
    readDataRun (exRCfg 1) abcEosBytes = .inr [] ∧
    specDecodeRange exMCfg.eol exMCfg.eolNE exMCfg.lineParse
      (['a', 'b', 'c'] : List Char) = [Entry.record ["abc"]] ∧
    ([] : List Entry) ≠ [Entry.record ["abc"]] := by
  refine ⟨?_, ?_, by decide⟩
  · simp [readDataRun, feed, readData, RState.init, exRCfg, mkRCfg, exMCfg, abcEosBytes,
      loopRun, bufIndexOf, beginsWith, parseSentence, asciiDec, splitFields,
      splitFieldsAux, Char.ofNat]
  · simp [specDecodeRange, splitOnEol, bufIndexOf, beginsWith, exMCfg, splitFields,
      splitFieldsAux]

/-- C9 (amended): decoding a range splits it on the platform terminator and
emits, in source order, the parsed records of exactly the terminator-completed
lines: the final segment after the last terminator is dropped entirely,
whether empty or not (so a range ending with the terminator loses only the
empty trailing segment, and an empty range yields no records). -/
theorem c9_decode_rule : ∀ (α : Type) (eol : List Char) (he : eol ≠ [])
    (parse : List Char → α) (s : List Char),
    parseSentence eol he parse s = ((splitOnEol eol he s).dropLast).map parse :=
  fun _ eol he parse s => parseSentence_eq_dropLast eol he parse s

/-- C9 (witness): the decode rule at the concrete unterminated range. -/
theorem c9_witness :
    parseSentence exMCfg.eol exMCfg.eolNE exMCfg.lineParse (['a', 'b', 'c'] : List Char) =
      ((splitOnEol exMCfg.eol exMCfg.eolNE (['a', 'b', 'c'] : List Char)).dropLast).map
        exMCfg.lineParse :=
  c9_decode_rule Entry exMCfg.eol exMCfg.eolNE exMCfg.lineParse ['a', 'b', 'c']

/-- C10: when a read operation completes partway through a chunk, the bytes
after the terminating sentinel are discarded: appending garbage after the
completing bytes leaves the resolved result unchanged, and a completing data
event removes the head while leaving every remaining queued task exactly as
it was (the remainder is routed to no one). -/
theorem c10_discard_after_completion :
    (∀ (α : Type) (cfg : RCfg α) (st : RState α) (pre garbage : List Nat) (res : List α),
        feed cfg (.inl st) pre = .inr res → feed cfg (.inl st) (pre ++ garbage) = .inr res) ∧
    (∀ (α : Type) (st : MState α) (chunk : List Nat) (st2 : MState α),
        dataEvent st chunk = some st2 →
        st2.tasks = st.tasks.tail ∨ st2.tasks.tail = st.tasks.tail) := by
  constructor
  · intro α cfg st pre g res h
    have happ := feed_append cfg st pre g
    rw [h] at happ
    have hres : feed cfg (Sum.inr res : RState α ⊕ List α) g = Sum.inr res := rfl
    rw [hres] at happ
    exact happ.symm
  · intro α st chunk st2 h
    cases hts : st.tasks with
    | nil =>
      rw [dataEvent_none_of_nil st chunk hts] at h
      exact Option.noConfusion h
    | cons t rest =>
      cases t with
      | kill i sg sett =>
        rw [dataEvent_none_of_kill st chunk hts] at h
        exact Option.noConfusion h
      | read i rst rcfg sett =>
        cases hrd : readData rcfg rst chunk with
        | inl rst2 =>
          rw [dataEvent_inl st chunk hts hrd] at h
          injection h with h2
          subst h2
          right
          rfl
        | inr result =>
          rw [dataEvent_inr st chunk hts hrd] at h
          injection h with h2
          subst h2
          left
          rfl

/-- C10 (witness): the discard law at a concrete completing input: the lone
sentinel completes the operation with result `[]`, and trailing garbage
bytes change nothing. -/
theorem c10_witness :
    feed (exRCfg 1) (.inl RState.init) (eosOnlyBytes ++ pA) = .inr ([] : List Entry) :=
  c10_discard_after_completion.1 Entry (exRCfg 1) RState.init eosOnlyBytes pA []
    (by simp [feed, readData, RState.init, exRCfg, mkRCfg, exMCfg, eosOnlyBytes,
      loopRun, bufIndexOf, beginsWith, parseSentence, asciiDec])
